import Mathlib

/-!
Shallow embedding of the quantum state-vector simulation engine of the
`quantum-computing-simulator` repository (TypeScript sources: the
`StateVectorEngine` and `CircuitSimulator` classes, the gate catalog in
`src/core/math/gates.ts` and the complex primitives in
`src/core/math/complex.ts`).

Modelling conventions:
* IEEE-754 doubles are modelled by an arbitrary linearly ordered field `K`
  (instantiated at `ℚ` for concrete evaluations); the model is exact, so
  rounding is not represented.
* The engine stores a state vector as an interleaved `Float64Array`
  `[re0, im0, re1, im1, ...]`; we model the buffer as a function from the
  basis index to the complex pair `(re, im)` stored at slots `2i, 2i+1`.
  Reads beyond the written range (which yield `undefined` in JS and are
  never performed by the paths verified here) are modelled as `0`.
* `Math.random()` draws are passed in explicitly (a draw value, or a
  stream `ℕ → K` indexed by draw order).
* `Math.sqrt` is passed in explicitly as a function parameter `sqrtK`,
  interpreted as the real square root when `K = ℝ`.
-/

namespace QSim

/-- Complex number as a pair of field elements, as in `src/core/types`
(`Complex { real, imag }`). The engine inlines the arithmetic formulas of
`src/core/math/complex.ts` (`multiply`, `add`); the instances below are
exactly those formulas. -/
structure Complex (K : Type) where
  re : K
  im : K
deriving DecidableEq, Repr

namespace Complex

variable {K : Type} [LinearOrderedField K]

instance : Zero (Complex K) := ⟨⟨0, 0⟩⟩

instance : One (Complex K) := ⟨⟨1, 0⟩⟩

instance : Add (Complex K) := ⟨fun a b => ⟨a.re + b.re, a.im + b.im⟩⟩

instance : Neg (Complex K) := ⟨fun a => ⟨-a.re, -a.im⟩⟩

/-- Source `complex.multiply`: `(a+bi)(c+di) = (ac−bd)+(ad+bc)i`. -/
instance : Mul (Complex K) := ⟨fun a b => ⟨a.re * b.re - a.im * b.im, a.re * b.im + a.im * b.re⟩⟩

@[simp] theorem zero_re : (0 : Complex K).re = 0 := rfl

@[simp] theorem zero_im : (0 : Complex K).im = 0 := rfl

@[simp] theorem one_re : (1 : Complex K).re = 1 := rfl

@[simp] theorem one_im : (1 : Complex K).im = 0 := rfl

@[simp] theorem add_re (a b : Complex K) : (a + b).re = a.re + b.re := rfl

@[simp] theorem add_im (a b : Complex K) : (a + b).im = a.im + b.im := rfl

@[simp] theorem neg_re (a : Complex K) : (-a).re = -a.re := rfl

@[simp] theorem neg_im (a : Complex K) : (-a).im = -a.im := rfl

@[simp] theorem mul_re (a b : Complex K) : (a * b).re = a.re * b.re - a.im * b.im := rfl

@[simp] theorem mul_im (a b : Complex K) : (a * b).im = a.re * b.im + a.im * b.re := rfl

omit [LinearOrderedField K] in
protected theorem ext {a b : Complex K} (hre : a.re = b.re) (him : a.im = b.im) : a = b := by
  cases a; cases b; cases hre; cases him; rfl

instance : CommRing (Complex K) where
  nsmul := nsmulRec
  zsmul := zsmulRec
  add_assoc a b c := Complex.ext (add_assoc _ _ _) (add_assoc _ _ _)
  zero_add a := Complex.ext (zero_add _) (zero_add _)
  add_zero a := Complex.ext (add_zero _) (add_zero _)
  add_comm a b := Complex.ext (add_comm _ _) (add_comm _ _)
  neg_add_cancel a := Complex.ext (neg_add_cancel _) (neg_add_cancel _)
  mul_assoc a b c := Complex.ext (by simp; ring) (by simp; ring)
  one_mul a := Complex.ext (by simp) (by simp)
  mul_one a := Complex.ext (by simp) (by simp)
  left_distrib a b c := Complex.ext (by simp; ring) (by simp; ring)
  right_distrib a b c := Complex.ext (by simp; ring) (by simp; ring)
  mul_comm a b := Complex.ext (by simp; ring) (by simp; ring)
  zero_mul a := Complex.ext (by simp) (by simp)
  mul_zero a := Complex.ext (by simp) (by simp)

/-- Source `complex.conjugate`: negate the imaginary part. -/
def conj (a : Complex K) : Complex K := ⟨a.re, -a.im⟩

@[simp] theorem conj_re (a : Complex K) : (conj a).re = a.re := rfl

@[simp] theorem conj_im (a : Complex K) : (conj a).im = -a.im := rfl

theorem conj_add (a b : Complex K) : conj (a + b) = conj a + conj b :=
  Complex.ext (by simp only [conj_re, add_re]) (by simp only [conj_im, add_im, neg_add])

theorem conj_mul (a b : Complex K) : conj (a * b) = conj a * conj b := by
  apply Complex.ext <;> simp only [conj_re, conj_im, mul_re, mul_im] <;> ring

/-- Source `complex.magSquared`: `re·re + im·im` (also inlined by the engine as
`real * real + imag * imag`). -/
def magSquared (a : Complex K) : K := a.re * a.re + a.im * a.im

theorem magSquared_eq_mul_conj_re (a : Complex K) : magSquared a = (a * conj a).re := by
  simp only [magSquared, mul_re, conj_re, conj_im]
  ring

@[simp] theorem mk_add_mk (a b c d : K) :
    (⟨a, b⟩ + ⟨c, d⟩ : Complex K) = ⟨a + c, b + d⟩ := rfl

@[simp] theorem mk_mul_mk (a b c d : K) :
    (⟨a, b⟩ * ⟨c, d⟩ : Complex K) = ⟨a * c - b * d, a * d + b * c⟩ := rfl

@[simp] theorem conj_mk (a b : K) : conj ⟨a, b⟩ = ⟨a, -b⟩ := rfl

theorem zero_def : (0 : Complex K) = ⟨0, 0⟩ := rfl

theorem one_def : (1 : Complex K) = ⟨1, 0⟩ := rfl

/-- Division of an amplitude by a real scalar: the engine divides the two
interleaved slots `newVector[i] /= normalizationFactor` separately. -/
def divR (a : Complex K) (x : K) : Complex K := ⟨a.re / x, a.im / x⟩

end Complex

variable {K : Type} [LinearOrderedField K]

/-- Entry lookup `matrix[r][c]` in a `Complex[][]` literal. -/
def matEntry (m : List (List (Complex K))) (r c : ℕ) : Complex K :=
  (m.getD r []).getD c 0

/-- Source `QuantumGate` from `src/core/types`: name, matrix, symbol, description,
arity (`qubits`). -/
structure QuantumGate (K : Type) where
  name : String
  matrix : List (List (Complex K))
  symbol : String
  description : String
  qubits : ℕ

/-- Source `QuantumState` from `src/core/types`: qubit count and the amplitude
buffer (interleaved `Float64Array` of length `2·2^qubits`, modelled as a
map from basis index to the complex pair stored there). The optional
`probabilities` cache is not modelled; it is a memoisation of
`calculateProbabilities` and carries no independent information. -/
structure QuantumState (K : Type) where
  qubits : ℕ
  vector : ℕ → Complex K

/-- Source `CircuitOperation` from `src/core/types`: gate, target qubits, optional
control qubits (defaulted to `[]` at the destructuring in `applyGate`),
optional parameters. -/
structure CircuitOperation (K : Type) where
  gate : QuantumGate K
  targets : List ℕ
  controls : List ℕ := []
  params : List K := []

/-- One entry of `circuit.measurements`: a (qubit, classical bit) pair. -/
structure MeasurementAssignment where
  qubit : ℕ
  classical : ℕ

/-- Source `QuantumCircuit` from `src/core/types`. -/
structure QuantumCircuit (K : Type) where
  id : String
  numQubits : ℕ
  operations : List (CircuitOperation K)
  measurements : List MeasurementAssignment

/-- Source `MeasurementResult` from `src/core/types`: bit-string (modelled as the
list of bits, most significant first, as produced by
`toString(2).padStart(qubits, 0)`), probability, frequency. -/
structure MeasurementResult (K : Type) where
  state : List ℕ
  probability : K
  frequency : K
deriving DecidableEq

/-- Source `StateVectorEngine.createState`: dimension `2^qubits`, all amplitudes
zero except amplitude `1.0` at basis index `0`. -/
def createState (qubits : ℕ) : QuantumState K :=
  { qubits := qubits
    vector := fun i => if i = 0 then 1 else 0 }

/-- Source `StateVectorEngine.calculateProbabilities`: `|amp i|²` for each basis
index (`real * real + imag * imag` in the source). -/
def calculateProbabilities (s : QuantumState K) : ℕ → K :=
  fun i => (s.vector i).re * (s.vector i).re + (s.vector i).im * (s.vector i).im

/-- Source `StateVectorEngine.applySingleQubitGate`: for each basis index `i`, with
`targetBit` the target bit of `i` and `flipped = i XOR (1 << target)`,
write `M[0][0]·amp[i] + M[0][1]·amp[flipped]` when the bit is `0` and
`M[1][0]·amp[flipped] + M[1][1]·amp[i]` when it is `1`, into a freshly
allocated zero buffer. -/
def applySingleQubitGate (s : QuantumState K) (matrix : List (List (Complex K)))
    (targetQubit : ℕ) : QuantumState K :=
  { qubits := s.qubits
    vector := fun i =>
      if i < 2 ^ s.qubits then
        let targetBit := (i >>> targetQubit) &&& 1
        let flipped := i ^^^ (1 <<< targetQubit)
        if targetBit = 0 then
          matEntry matrix 0 0 * s.vector i + matEntry matrix 0 1 * s.vector flipped
        else
          matEntry matrix 1 0 * s.vector flipped + matEntry matrix 1 1 * s.vector i
      else 0 }

/-- One iteration of the `applyCNOT` loop: when the control bit of `i` is
`1`, swap the buffer entries at `i` and at `i` with the target bit flipped
(the source uses a temporary: `temp := result[i]; result[i] := result[f];
result[f] := temp`). -/
def cnotStep (controlQubit targetQubit : ℕ) (buf : ℕ → Complex K) (i : ℕ) : ℕ → Complex K :=
  if (i >>> controlQubit) &&& 1 = 1 then
    let flipped := i ^^^ (1 <<< targetQubit)
    Function.update (Function.update buf i (buf flipped)) flipped (buf i)
  else buf

/-- Source `StateVectorEngine.applyCNOT`: copy the vector
(`new Float64Array(state.vector)`), then run the swap loop over every basis
index `i < 2^qubits`. -/
def applyCNOT (s : QuantumState K) (controlQubit targetQubit : ℕ) : QuantumState K :=
  { qubits := s.qubits
    vector := (List.range (2 ^ s.qubits)).foldl (cnotStep controlQubit targetQubit) s.vector }

/-- Accumulation `buf[idx] += z` (read-modify-write on the result buffer). -/
def accumOne (buf : ℕ → Complex K) (idx : ℕ) (z : Complex K) : ℕ → Complex K :=
  Function.update buf idx (buf idx + z)

/-- Accumulate a list of `(index, contribution)` pairs in order. -/
def accumList (buf : ℕ → Complex K) (l : List (ℕ × Complex K)) : ℕ → Complex K :=
  l.foldl (fun b p => accumOne b p.1 p.2) buf

/-- The 2-bit input pattern `matrixIdx = (bit1 << 1) | bit2` of basis index
`i` at target qubits `q1, q2` (`applyTwoQubitGate`). -/
def patt (q1 q2 i : ℕ) : ℕ :=
  (((i >>> q1) &&& 1) <<< 1) ||| ((i >>> q2) &&& 1)

/-- The destination index of `applyTwoQubitGate`: `i` with the bits at
`q1, q2` replaced by the bits of the output pattern `j` (`newState`,
computed by flipping exactly the differing bits). -/
def dest (q1 q2 i j : ℕ) : ℕ :=
  (i ^^^ (if (i >>> q1) &&& 1 ≠ (j >>> 1) &&& 1 then 1 <<< q1 else 0))
    ^^^ (if (i >>> q2) &&& 1 ≠ j &&& 1 then 1 <<< q2 else 0)

/-- Source `StateVectorEngine.applyTwoQubitGate`: starting from a zero buffer, for
every basis index `i` and every output pattern `j ∈ [0,4)`, accumulate
`matrix[j][matrixIdx]·amp[i]` into the destination index. -/
def applyTwoQubitGate (s : QuantumState K) (matrix : List (List (Complex K)))
    (qubit1 qubit2 : ℕ) : QuantumState K :=
  { qubits := s.qubits
    vector :=
      (List.range (2 ^ s.qubits)).foldl
        (fun buf i =>
          accumList buf ((List.range 4).map fun j =>
            (dest qubit1 qubit2 i j, matEntry matrix j (patt qubit1 qubit2 i) * s.vector i)))
        (fun _ => 0) }

/-- Source `StateVectorEngine.applyGeneralGate`: the unimplemented placeholder —
after a `console.warn` it returns the input state object unchanged. -/
def applyGeneralGate (s : QuantumState K) (_operation : CircuitOperation K) : QuantumState K :=
  s

/-- Source `StateVectorEngine.applyGate` dispatch, with the conditions exactly as
written in the source (note the first condition requires
`targets.length !== gate.qubits`). `targets[0]` on an empty list is
`undefined` in JS, which the shift coercions treat as `0`; it is modelled
as `getD 0 0`. -/
def applyGate (s : QuantumState K) (op : CircuitOperation K) : QuantumState K :=
  if op.targets.length ≠ op.gate.qubits ∧ op.gate.qubits = 1 ∧ op.controls.length = 0 then
    applySingleQubitGate s op.gate.matrix (op.targets.getD 0 0)
  else if op.gate.qubits = 2 ∧ op.targets.length = 2 ∧ op.controls.length = 0 then
    applyTwoQubitGate s op.gate.matrix (op.targets.getD 0 0) (op.targets.getD 1 0)
  else if op.gate.name = "cnot" ∧ op.targets.length = 1 ∧ op.controls.length = 1 then
    applyCNOT s (op.controls.getD 0 0) (op.targets.getD 0 0)
  else
    applyGeneralGate s op

/-- Probability that the given qubit reads `1`: the sum of
`probabilities[i]` over basis indices whose `qubit` bit is `1`
(the first loop of `StateVectorEngine.measure`). -/
def probOne (s : QuantumState K) (qubit : ℕ) : K :=
  ∑ i in Finset.range (2 ^ s.qubits),
    if (i >>> qubit) &&& 1 = 1 then calculateProbabilities s i else 0

/-- Retained probability mass of `StateVectorEngine.measure`: the
`normalizationFactor` accumulated (before the square root) over the kept
entries, `real * real + imag * imag` summed over indices whose `qubit` bit
equals the outcome. -/
def retainedMass (s : QuantumState K) (qubit outcome : ℕ) : K :=
  ∑ i in Finset.range (2 ^ s.qubits),
    if (i >>> qubit) &&& 1 = outcome then calculateProbabilities s i else 0

/-- Source `StateVectorEngine.measure`, with the `Math.random()` draw passed in as
`random` and `Math.sqrt` as `sqrtK`. Outcome is `1` iff `random < P(1)`;
the collapsed vector keeps exactly the amplitudes whose `qubit` bit equals
the outcome and divides every slot by
`normalizationFactor = sqrt(retained mass)`. The source contains no guard
and no error path: the function always returns a state, even when the
retained mass (and hence the divisor) is `0`. -/
def measure (sqrtK : K → K) (s : QuantumState K) (qubit : ℕ) (random : K) :
    QuantumState K × Bool :=
  let dim := 2 ^ s.qubits
  let prob1 := probOne s qubit
  let outcome : ℕ := if random < prob1 then 1 else 0
  let measured : Bool := outcome == 1
  let newVector : ℕ → Complex K := fun i =>
    if i < dim ∧ (i >>> qubit) &&& 1 = outcome then s.vector i else 0
  let normalizationFactor := sqrtK (retainedMass s qubit outcome)
  (⟨s.qubits, fun i => Complex.divR (newVector i) normalizationFactor⟩, measured)

/-- Cumulative probability distribution of `sampleMeasurements`:
`cumulativeProbs[0] = probabilities[0]`,
`cumulativeProbs[i] = cumulativeProbs[i-1] + probabilities[i]`. -/
def cumulativeProbs (s : QuantumState K) : ℕ → K
  | 0 => calculateProbabilities s 0
  | i + 1 => cumulativeProbs s i + calculateProbabilities s (i + 1)

/-- The binary-search loop of `sampleMeasurements`: while `low ≤ high`,
take `mid = floor((low+high)/2)`; if `random < cumulativeProbs[mid]`
record `outcome := mid` and search below, else search above. Lean integer
division is floor division, matching `Math.floor`. In every reachable call
`0 ≤ low`, so `mid.toNat` reads the array slot the source reads. -/
def binSearchLoop (cum : ℕ → K) (random : K) (low high : ℤ) (outcome : ℕ) : ℕ :=
  if _h : low ≤ high then
    let mid := (low + high) / 2
    if random < cum mid.toNat then binSearchLoop cum random low (mid - 1) mid.toNat
    else binSearchLoop cum random (mid + 1) high outcome
  else outcome
termination_by (high + 1 - low).toNat
decreasing_by all_goals omega

/-- The outcome index drawn for one shot: binary search over the whole
cumulative array, starting from `low = 0`, `high = dim - 1`, `outcome = 0`. -/
def sampleOutcome (s : QuantumState K) (random : K) : ℕ :=
  binSearchLoop (cumulativeProbs s) random 0 ((2 ^ s.qubits : ℤ) - 1) 0

/-- Source `outcome.toString(2).padStart(qubits, 0)`: the bit-string of a basis
index, most significant bit first, modelled as the list of bits. -/
def natToBits (qubits n : ℕ) : List ℕ :=
  (List.range qubits).map fun k => (n >>> (qubits - 1 - k)) &&& 1

/-- Recording one shot in the results map (a JS object keyed by bit-string,
modelled as an association list in insertion order): an existing entry gets
`frequency + 1`, a missing key is inserted with occurrence count `1` and
`probability = probabilities[outcome]`. -/
def updateResults (res : List (List ℕ × MeasurementResult K)) (key : List ℕ)
    (prob : K) : List (List ℕ × MeasurementResult K) :=
  match res with
  | [] => [(key, ⟨key, prob, 1⟩)]
  | (k, mr) :: rest =>
    if k = key then (k, { mr with frequency := mr.frequency + 1 }) :: rest
    else (k, mr) :: updateResults rest key prob

/-- The sampling loop of `StateVectorEngine.sampleMeasurements`: occurrence
counts per bit-string after all `shots` draws (draw `shot` comes from the
stream `rng`). -/
def rawResults (s : QuantumState K) (shots : ℕ) (rng : ℕ → K) :
    List (List ℕ × MeasurementResult K) :=
  (List.range shots).foldl
    (fun res shot =>
      let outcome := sampleOutcome s (rng shot)
      updateResults res (natToBits s.qubits outcome) (calculateProbabilities s outcome))
    []

/-- Source `StateVectorEngine.sampleMeasurements` with the `shots` draws of
`Math.random()` supplied by the stream `rng`: accumulate occurrence counts
per bit-string, then divide every count by `shots`. -/
def sampleMeasurements (s : QuantumState K) (shots : ℕ) (rng : ℕ → K) :
    List (List ℕ × MeasurementResult K) :=
  (rawResults s shots rng).map fun e =>
    (e.1, { e.2 with frequency := e.2.frequency / (shots : K) })

/-- Source `SimulationResult` from `src/core/types` (elapsed wall-clock time is
not modelled). -/
structure SimulationResult (K : Type) where
  circuitId : String
  finalState : QuantumState K
  measurements : List (List ℕ × MeasurementResult K)

/-- The `shots === 1` measurement loop of `CircuitSimulator.runCircuit`:
one single-qubit `measure` per entry of `circuit.measurements`, in order,
each collapsed state feeding the next call, writing the classical bit of
each outcome at the entry's classical index (the classical array starts as
`Array(length).fill(0)`). Returns the final state and the classical bits. -/
def runMeasurements (sqrtK : K → K) (s : QuantumState K)
    (ms : List MeasurementAssignment) (rng : ℕ → K) : QuantumState K × List ℕ :=
  let r :=
    ms.foldl
      (fun acc m =>
        let res := measure sqrtK acc.1 m.qubit (rng acc.2.2)
        (res.1, (acc.2.1.set m.classical (if res.2 then 1 else 0), acc.2.2 + 1)))
      (s, (List.replicate ms.length 0, 0))
  (r.1, r.2.1)

/-- Source `CircuitSimulator.runCircuit`: create the all-zeros state, apply every
operation in circuit order, then branch on `shots`: `0` returns no
measurements, `1` runs the single-shot measurement loop and stores one
combined bit-string with `probability = 1.0` and `frequency = 1.0`, any
other count samples the final unmeasured state. -/
def runCircuit (sqrtK : K → K) (circuit : QuantumCircuit K) (shots : ℕ)
    (rng : ℕ → K) : SimulationResult K :=
  let state := circuit.operations.foldl applyGate (createState circuit.numQubits)
  if shots = 0 then
    { circuitId := circuit.id, finalState := state, measurements := [] }
  else if shots = 1 then
    let r := runMeasurements sqrtK state circuit.measurements rng
    { circuitId := circuit.id, finalState := r.1
      measurements := [(r.2, ⟨r.2, 1, 1⟩)] }
  else
    { circuitId := circuit.id, finalState := state
      measurements := sampleMeasurements state shots rng }

/-! Gate catalog (`src/core/math/gates.ts`). Matrices are the source
literals; `1/Math.sqrt(2)` is abstracted as a parameter `h` (the theorems
below hold for every value of `h`, in particular the real `1/√2`). -/

/-- Source `pauliX`: `[[0,1],[1,0]]`, arity 1. -/
def pauliX : QuantumGate K :=
  { name := "pauliX"
    matrix := [[⟨0, 0⟩, ⟨1, 0⟩], [⟨1, 0⟩, ⟨0, 0⟩]]
    symbol := "X"
    description := "Pauli-X gate - flips the qubit state (quantum NOT gate)"
    qubits := 1 }

/-- Source `hadamard`: `[[h,h],[h,-h]]` with `h = 1/Math.sqrt(2)`, arity 1. -/
def hadamard (h : K) : QuantumGate K :=
  { name := "hadamard"
    matrix := [[⟨h, 0⟩, ⟨h, 0⟩], [⟨h, 0⟩, ⟨-h, 0⟩]]
    symbol := "H"
    description := "Hadamard gate - creates superposition"
    qubits := 1 }

/-- Source `cnot`: the 4×4 controlled-NOT matrix, arity 2, name `cnot`. -/
def cnot : QuantumGate K :=
  { name := "cnot"
    matrix :=
      [[⟨1, 0⟩, ⟨0, 0⟩, ⟨0, 0⟩, ⟨0, 0⟩],
       [⟨0, 0⟩, ⟨1, 0⟩, ⟨0, 0⟩, ⟨0, 0⟩],
       [⟨0, 0⟩, ⟨0, 0⟩, ⟨0, 0⟩, ⟨1, 0⟩],
       [⟨0, 0⟩, ⟨0, 0⟩, ⟨1, 0⟩, ⟨0, 0⟩]]
    symbol := "CNOT"
    description := "Controlled-NOT gate - flips the target qubit if the control qubit is set"
    qubits := 2 }

/-- Source `swap`: the 4×4 SWAP matrix, arity 2. -/
def swapGate : QuantumGate K :=
  { name := "swap"
    matrix :=
      [[⟨1, 0⟩, ⟨0, 0⟩, ⟨0, 0⟩, ⟨0, 0⟩],
       [⟨0, 0⟩, ⟨0, 0⟩, ⟨1, 0⟩, ⟨0, 0⟩],
       [⟨0, 0⟩, ⟨1, 0⟩, ⟨0, 0⟩, ⟨0, 0⟩],
       [⟨0, 0⟩, ⟨0, 0⟩, ⟨0, 0⟩, ⟨1, 0⟩]]
    symbol := "SWAP"
    description := "SWAP gate - exchanges the state of two qubits"
    qubits := 2 }

/-- Source `toffoli`: the 8×8 matrix built by the source loop (identity except
rows 6 and 7, which are exchanged), arity 3. -/
def toffoli : QuantumGate K :=
  { name := "toffoli"
    matrix :=
      (List.range 8).map fun i =>
        (List.range 8).map fun j =>
          if i = 6 then (if j = 7 then 1 else 0)
          else if i = 7 then (if j = 6 then 1 else 0)
          else if i = j then 1 else 0
    symbol := "CCNOT"
    description := "Toffoli gate (CCNOT) - flips the target if both controls are set"
    qubits := 3 }

/-- A computational basis state: amplitude `1` at index `k`, `0` elsewhere. -/
def basisState (qubits k : ℕ) : QuantumState K :=
  { qubits := qubits, vector := fun i => if i = k then 1 else 0 }

/-! ## Claims -/

/-- Claim C8: every operation that falls into the general-gate fallback of
`applyGate` (none of the three dispatch conditions holds: general
controlled gates, 3-qubit gates such as Toffoli, multi-control
configurations) returns the input state unchanged — the fallback is an
unimplemented placeholder. -/
theorem claim_C8 (s : QuantumState K) (op : CircuitOperation K)
    (h1 : ¬(op.targets.length ≠ op.gate.qubits ∧ op.gate.qubits = 1 ∧ op.controls.length = 0))
    (h2 : ¬(op.gate.qubits = 2 ∧ op.targets.length = 2 ∧ op.controls.length = 0))
    (h3 : ¬(op.gate.name = "cnot" ∧ op.targets.length = 1 ∧ op.controls.length = 1)) :
    applyGate s op = s := by
  unfold applyGate
  rw [if_neg h1, if_neg h2, if_neg h3]
  rfl

/-- A Toffoli operation in the controls/target form (two controls, one
target): exercises the fallback path. -/
def toffoliOp : CircuitOperation ℚ :=
  { gate := toffoli, targets := [2], controls := [0, 1] }

/-- Witness for C8: the Toffoli operation on a 3-qubit all-zeros state
satisfies none of the dispatch conditions, and `applyGate` returns the
state unchanged. -/
theorem claim_C8_witness :
    (¬(toffoliOp.targets.length ≠ toffoliOp.gate.qubits ∧ toffoliOp.gate.qubits = 1 ∧
        toffoliOp.controls.length = 0)) ∧
      applyGate (createState 3) toffoliOp = createState 3 :=
  ⟨by decide, claim_C8 (createState 3) toffoliOp (by decide) (by decide) (by decide)⟩

/-- Claim C5: applying the Hadamard gate to the same qubit twice in
succession via `applyGate` returns the original amplitude buffer exactly
(hence within any floating-point tolerance), for every starting state,
every target qubit, and every value `h` of the matrix entry `1/√2`. In the
source this holds because a well-formed single-qubit operation (one target,
arity 1, no controls) fails the first dispatch condition
(`targets.length !== gate.qubits`) and falls through to the general-gate
placeholder, so each application is the identity. -/
theorem claim_C5 (h : K) (s : QuantumState K) (t : ℕ) :
    applyGate (applyGate s { gate := hadamard h, targets := [t] })
      { gate := hadamard h, targets := [t] } = s := by
  have e : ∀ s' : QuantumState K, applyGate s' { gate := hadamard h, targets := [t] } = s' := by
    intro s'
    unfold applyGate
    rw [if_neg (by simp [hadamard]), if_neg (by simp [hadamard]),
      if_neg (by simp [hadamard])]
    rfl
  rw [e, e]

/-- The Pauli-X operation as built by the application UI: arity-1 gate, one
target, no controls. -/
def pauliXOp : CircuitOperation ℚ :=
  { gate := pauliX, targets := [0] }

/-- Claim C1 (code bug): a well-formed single-qubit operation (arity 1,
exactly one target, no controls) does NOT reach the specialized pairwise
update: the first dispatch condition requires `targets.length ≠
gate.qubits`, which is false when they are both 1, so the operation falls
through to the general-gate placeholder. Applying Pauli-X to `|0⟩` via
`applyGate` therefore leaves the state unchanged (amplitudes `(1,0)` at
index 0 and `(0,0)` at index 1) instead of the claimed `|1⟩`; the
specialized routine itself, applied directly, does produce `|1⟩`. -/
theorem claim_C1_bug :
    applyGate (createState 1) pauliXOp = createState 1 ∧
      (applyGate (createState 1) pauliXOp).vector 0 = 1 ∧
      (applyGate (createState 1) pauliXOp).vector 1 = 0 ∧
      (applySingleQubitGate (createState 1) (pauliX (K := ℚ)).matrix 0).vector 0 = 0 ∧
      (applySingleQubitGate (createState 1) (pauliX (K := ℚ)).matrix 0).vector 1 = 1 := by
  refine ⟨rfl, by decide, by decide, ?_, ?_⟩ <;>
    · show (_ : Complex ℚ) = _
      norm_num [applySingleQubitGate, matEntry, createState, pauliX]
      rfl

/-- The CNOT operation as built by the application UI: named gate `cnot`,
one control, one target. -/
def cnotOp : CircuitOperation ℚ :=
  { gate := cnot, targets := [1], controls := [0] }

/-- Claim C2 (code bug): `applyGate` with the CNOT operation
(control 0, target 1) dispatches to `applyCNOT`, whose loop runs over every
basis index with control bit 1 — each amplitude pair is therefore swapped
twice (once at `i` and once at `i XOR (1<<target)`), so the whole map is
the identity, not the CNOT permutation. On the basis state `|10⟩`
(index 1: qubit 0 is 1, qubit 1 is 0) the result keeps amplitude 1 at
index 1 and amplitude 0 at index 3, where the truth table demands `|11⟩`
(index 3). -/
theorem claim_C2_bug :
    (∀ i < 4, (applyGate (basisState 2 1) cnotOp).vector i = (basisState 2 1 : QuantumState ℚ).vector i) ∧
      (applyGate (basisState 2 1) cnotOp).vector 1 = 1 ∧
      (applyGate (basisState 2 1) cnotOp).vector 3 = 0 := by
  refine ⟨by decide, by decide, by decide⟩

/-- If the draw is at least every cumulative entry below `d`, the binary
search loop never takes the `outcome := mid` branch, so it returns its
incoming `outcome` argument unchanged. -/
theorem binSearchLoop_ge_all (cum : ℕ → K) (r : K) (d : ℕ)
    (hall : ∀ j < d, cum j ≤ r) :
    ∀ n (low high : ℤ) (outcome : ℕ), (high + 1 - low).toNat = n → 0 ≤ low →
      high < (d : ℤ) → binSearchLoop cum r low high outcome = outcome := by
  intro n
  induction n using Nat.strong_induction_on with
  | _ n ih =>
    intro low high outcome hn h0 hd
    unfold binSearchLoop
    split
    case isTrue hle =>
      have hcum : ¬ r < cum ((low + high) / 2).toNat := by
        refine not_lt.mpr (hall _ ?_)
        omega
      rw [if_neg hcum]
      exact ih ((high + 1 - ((low + high) / 2 + 1)).toNat) (by omega) _ _ _ rfl (by omega) hd
    case isFalse => rfl

/-- Claim C10: for a shot whose uniform draw `r` is greater than or equal
to every entry of the cumulative probability array (possible in the source
when the floating-point prefix sums fall short of 1), the binary search
records basis index 0 — the all-zeros bit-string — because `outcome` is
initialized to 0 and only updated when `r` is strictly below some
cumulative entry. -/
theorem claim_C10 (s : QuantumState K) (r : K)
    (hall : ∀ j < 2 ^ s.qubits, cumulativeProbs s j ≤ r) :
    sampleOutcome s r = 0 ∧
      natToBits s.qubits (sampleOutcome s r) = List.replicate s.qubits 0 := by
  have h0 : sampleOutcome s r = 0 := by
    unfold sampleOutcome
    exact binSearchLoop_ge_all (cumulativeProbs s) r (2 ^ s.qubits) hall _ 0
      ((2 ^ s.qubits : ℤ) - 1) 0 rfl (by omega)
      (by push_cast
          omega)
  refine ⟨h0, ?_⟩
  rw [h0]
  have hb : ∀ k : ℕ, (0 >>> (s.qubits - 1 - k)) &&& 1 = 0 := by
    intro k
    simp [Nat.zero_shiftRight]
  rw [List.eq_replicate_iff]
  constructor
  · simp [natToBits]
  · intro b hb'
    simp only [natToBits, List.mem_map, List.mem_range] at hb'
    obtain ⟨k, _, hk⟩ := hb'
    rw [← hk, hb k]

/-- An unnormalized 1-qubit state whose probabilities sum to 1/2: its
cumulative array tops out at 1/2, so a draw of 3/4 exceeds every entry. -/
def shortMassState : QuantumState ℚ :=
  { qubits := 1, vector := fun i => if i = 0 ∨ i = 1 then ⟨1/2, 0⟩ else 0 }

/-- Witness for C10: on `shortMassState` with draw 3/4, every cumulative
entry is at most the draw, and the recorded outcome is basis index 0. -/
theorem claim_C10_witness :
    cumulativeProbs shortMassState 0 ≤ 3/4 ∧ cumulativeProbs shortMassState 1 ≤ 3/4 ∧
      sampleOutcome shortMassState (3/4) = 0 :=
  ⟨by norm_num [cumulativeProbs, calculateProbabilities, shortMassState],
   by norm_num [cumulativeProbs, calculateProbabilities, shortMassState],
   (claim_C10 shortMassState (3/4) (by
      intro j hj
      have hj2 : j < 2 := hj
      interval_cases j <;>
        norm_num [cumulativeProbs, calculateProbabilities, shortMassState])).1⟩

/-- Recording one more shot adds exactly 1 to the total occurrence count. -/
theorem sumFreq_updateResults (res : List (List ℕ × MeasurementResult K))
    (key : List ℕ) (p : K) :
    ((updateResults res key p).map fun e => e.2.frequency).sum =
      (res.map fun e => e.2.frequency).sum + 1 := by
  induction res with
  | nil => simp [updateResults]
  | cons hd tl ih =>
    by_cases h : hd.1 = key
    · simp only [updateResults, h, if_pos rfl]
      simp
      ring
    · simp only [updateResults]
      rw [if_neg (by exact h)]
      simp [ih]
      ring

/-- After the sampling loop the occurrence counts total the number of
processed shots. -/
theorem sumFreq_rawResults (s : QuantumState K) (shots : ℕ) (rng : ℕ → K) :
    ((rawResults s shots rng).map fun e => e.2.frequency).sum = (shots : K) := by
  suffices h : ∀ (l : List ℕ) (res : List (List ℕ × MeasurementResult K)),
      ((l.foldl (fun res shot =>
          let outcome := sampleOutcome s (rng shot)
          updateResults res (natToBits s.qubits outcome) (calculateProbabilities s outcome))
        res).map fun e => e.2.frequency).sum =
        (res.map fun e => e.2.frequency).sum + l.length by
    have := h (List.range shots) []
    simpa [rawResults] using this
  intro l
  induction l with
  | nil => simp
  | cons hd tl ih =>
    intro res
    simp only [List.foldl_cons, ih, sumFreq_updateResults, List.length_cons]
    push_cast
    ring

/-- Claim C7: for every state and every `shots ≥ 1`, the frequencies
reported by `sampleMeasurements` (each an occurrence count divided by
`shots`, the counts summing to `shots`) sum to exactly 1. -/
theorem claim_C7 (s : QuantumState K) (shots : ℕ) (rng : ℕ → K)
    (hshots : 1 ≤ shots) :
    ((rawResults s shots rng).map fun e => e.2.frequency).sum = (shots : K) ∧
      ((sampleMeasurements s shots rng).map fun e => e.2.frequency).sum = 1 := by
  refine ⟨sumFreq_rawResults s shots rng, ?_⟩
  have hdiv : ∀ l : List (List ℕ × MeasurementResult K),
      ((l.map fun e => (e.1, { e.2 with frequency := e.2.frequency / (shots : K) })).map
        fun e => e.2.frequency).sum =
        ((l.map fun e => e.2.frequency).sum) / (shots : K) := by
    intro l
    induction l with
    | nil => simp
    | cons hd tl ih =>
      simp only [List.map_cons, List.sum_cons, List.map_map] at ih ⊢
      rw [ih, add_div]
  have hne : ((shots : K)) ≠ 0 := by
    have : (0 : K) < (shots : K) := by exact_mod_cast hshots
    exact ne_of_gt this
  rw [sampleMeasurements, hdiv, sumFreq_rawResults, div_self hne]

/-- Witness for C7: two shots on the 1-qubit all-zeros state; the reported
frequencies sum to 1. -/
theorem claim_C7_witness :
    1 ≤ 2 ∧
      ((sampleMeasurements (createState 1) 2 (fun _ => (1:ℚ)/2)).map
        fun e => e.2.frequency).sum = 1 :=
  ⟨by norm_num,
   (claim_C7 (createState 1) 2 (fun _ => (1:ℚ)/2) (by norm_num)).2⟩

/-- Claim C6: `runCircuit` with `shots = 1` performs one single-qubit
`measure` per entry of `circuit.measurements`, in the order given, each
collapse feeding the state used by the next (this is the `runMeasurements`
fold), and the returned measurement map holds exactly one combined
bit-string entry whose probability field is 1.0 (and frequency 1.0). The
hypothesis scopes the statement to well-formed circuits whose classical
indices are in range (the classical-bit writes stay inside the array;
out-of-range writes would grow a JS array, which the model does not
represent). -/
theorem claim_C6 (sqrtK : K → K) (c : QuantumCircuit K) (rng : ℕ → K)
    (_hwf : ∀ m ∈ c.measurements, m.classical < c.measurements.length) :
    (runCircuit sqrtK c 1 rng).measurements =
      [((runMeasurements sqrtK (c.operations.foldl applyGate (createState c.numQubits))
            c.measurements rng).2,
        ⟨(runMeasurements sqrtK (c.operations.foldl applyGate (createState c.numQubits))
            c.measurements rng).2, 1, 1⟩)] := by
  unfold runCircuit
  norm_num

/-- A 2-qubit circuit with no gates that measures both qubits. -/
def twoQubitMeasureCircuit : QuantumCircuit ℚ :=
  { id := "c", numQubits := 2, operations := []
    measurements := [⟨0, 0⟩, ⟨1, 1⟩] }

/-- Witness for C6: on the gate-less 2-qubit circuit, one shot returns the
single entry keyed by the measured bit-string with probability 1. -/
theorem claim_C6_witness :
    (∀ m ∈ twoQubitMeasureCircuit.measurements,
        m.classical < twoQubitMeasureCircuit.measurements.length) ∧
      (runCircuit id twoQubitMeasureCircuit 1 (fun _ => (1:ℚ)/2)).measurements =
        [((runMeasurements id (createState 2) twoQubitMeasureCircuit.measurements
              (fun _ => (1:ℚ)/2)).2,
          ⟨(runMeasurements id (createState 2) twoQubitMeasureCircuit.measurements
              (fun _ => (1:ℚ)/2)).2, 1, 1⟩)] :=
  ⟨by decide,
   claim_C6 id twoQubitMeasureCircuit (fun _ => (1:ℚ)/2) (by decide)⟩

/-- A 1-qubit state with amplitude 1/2 on `|1⟩` and 0 on `|0⟩`: outcome 0
(drawn whenever the uniform draw is at least `P(1) = 1/4`) retains zero
probability mass. -/
def degenState : QuantumState ℚ :=
  { qubits := 1, vector := fun i => if i = 1 then ⟨1/2, 0⟩ else 0 }

/-- Claim C3 (code bug): `measure` contains no guard and no error path.
Whenever the drawn outcome retains zero probability mass — here outcome 0
on `degenState` with draw 1/2 ≥ P(1) = 1/4 — the source divides every slot
of the collapsed buffer by `sqrt(0) = 0` and returns the state normally
instead of signalling a DegenerateCollapse-class failure. (In IEEE
arithmetic the division `0/0` propagates NaN amplitudes; in this exact
model division by zero is the total function returning 0, which the third
conjunct exhibits: the returned state is identically zero.) -/
theorem claim_C3_bug (sqrtK : ℚ → ℚ) (h0 : sqrtK 0 = 0) :
    retainedMass degenState 0 0 = 0 ∧
      (measure sqrtK degenState 0 (1/2)).2 = false ∧
      ∀ i, (measure sqrtK degenState 0 (1/2)).1.vector i = 0 := by
  have hm : retainedMass degenState 0 0 = 0 := by
    norm_num [retainedMass, Finset.sum_range_succ, calculateProbabilities, degenState]
  have hp : probOne degenState 0 = 1/4 := by
    norm_num [probOne, Finset.sum_range_succ, calculateProbabilities, degenState]
  have houtcome : ¬ ((1:ℚ)/2 < 1/4) := by norm_num
  refine ⟨hm, ?_, ?_⟩
  · simp only [measure, hp, if_neg houtcome]
    rfl
  · intro i
    simp only [measure, hp, if_neg houtcome, hm, h0]
    by_cases hi : i < 2 ^ degenState.qubits ∧ i >>> 0 &&& 1 = 0
    · rw [if_pos hi]
      have hv : degenState.vector i = 0 := by
        have hi2 : i < 2 := hi.1
        have hbit := hi.2
        interval_cases i
        · simp [degenState]
        · exact absurd hbit (by decide)
      rw [hv]
      simp [Complex.divR, Complex.zero_def]
    · rw [if_neg hi]
      simp [Complex.divR, Complex.zero_def]

/-- Witness for C3: with the square root modelled by `id` (which fixes 0),
the degenerate measurement returns outcome `false` and a state value — no
error is signalled — whose amplitude at index 0 is 0. -/
theorem claim_C3_bug_witness :
    id (0 : ℚ) = 0 ∧ retainedMass degenState 0 0 = 0 ∧
      (measure id degenState 0 (1/2)).1.vector 0 = 0 :=
  ⟨rfl, (claim_C3_bug id rfl).1, (claim_C3_bug id rfl).2.2 0⟩

/-! ## Norm preservation infrastructure (claim C4)

The two-qubit block update is the one dispatch path that performs real
arithmetic; the lemmas below characterise its index bookkeeping
(`patt`/`dest`) and its output buffer, and prove that a unitary 4×4 matrix
preserves the total squared magnitude. -/

/-- Total squared amplitude magnitude `Σ|amplitude|²` of a state. -/
def stateNorm (s : QuantumState K) : K :=
  ∑ i in Finset.range (2 ^ s.qubits), Complex.magSquared (s.vector i)

/-- The source's 4×4 unitarity precondition `U†U = I`, stated entrywise on
the gate matrix. -/
def unitary4 (M : List (List (Complex K))) : Prop :=
  ∀ p < 4, ∀ p' < 4,
    ∑ q in Finset.range 4, Complex.conj (matEntry M q p) * matEntry M q p' =
      if p = p' then 1 else 0

theorem and_one_le_one (x : ℕ) : x &&& 1 ≤ 1 := by
  rw [Nat.and_one_is_mod]
  omega

theorem bit_eq_ite (i k : ℕ) : (i >>> k) &&& 1 = if i.testBit k then 1 else 0 := by
  rw [Nat.and_one_is_mod, Nat.shiftRight_eq_div_pow, Nat.testBit_to_div_mod]
  by_cases h : i / 2 ^ k % 2 = 1
  · simp [h]
  · simp only [h, decide_False, Bool.false_eq_true, if_false]
    omega

theorem testBit_dest (q1 q2 : ℕ) (hne : q1 ≠ q2) (i j k : ℕ) :
    (dest q1 q2 i j).testBit k =
      if k = q1 then decide ((j >>> 1) &&& 1 = 1)
      else if k = q2 then decide (j &&& 1 = 1)
      else i.testBit k := by
  unfold dest
  rw [Nat.testBit_xor, Nat.testBit_xor]
  have hm1 : ∀ m : ℕ, m ≠ q1 →
      (if (i >>> q1) &&& 1 ≠ (j >>> 1) &&& 1 then 1 <<< q1 else 0).testBit m = false := by
    intro m hm
    split
    · rw [Nat.one_shiftLeft]
      exact Nat.testBit_two_pow_of_ne (fun h => hm h.symm)
    · simp
  have hm2 : ∀ m : ℕ, m ≠ q2 →
      (if (i >>> q2) &&& 1 ≠ j &&& 1 then 1 <<< q2 else 0).testBit m = false := by
    intro m hm
    split
    · rw [Nat.one_shiftLeft]
      exact Nat.testBit_two_pow_of_ne (fun h => hm h.symm)
    · simp
  by_cases hk1 : k = q1
  · subst hk1
    rw [hm2 k hne, if_pos rfl]
    have hb1 : (if (i >>> k) &&& 1 ≠ (j >>> 1) &&& 1 then 1 <<< k else 0).testBit k =
        decide ((i >>> k) &&& 1 ≠ (j >>> 1) &&& 1) := by
      split
      case isTrue h => rw [Nat.one_shiftLeft, Nat.testBit_two_pow_self, decide_eq_true h]
      case isFalse h =>
        simp only [Nat.zero_testBit]
        rw [decide_eq_false h]
    rw [hb1]
    rw [bit_eq_ite]
    have htb : (j >>> 1) &&& 1 = 0 ∨ (j >>> 1) &&& 1 = 1 := by
      have := and_one_le_one (j >>> 1)
      omega
    rcases htb with h | h <;> rw [h] <;> cases hb : i.testBit k <;> simp
  · by_cases hk2 : k = q2
    · subst hk2
      rw [hm1 k hk1, if_neg hk1, if_pos rfl]
      have hb2 : (if (i >>> k) &&& 1 ≠ j &&& 1 then 1 <<< k else 0).testBit k =
          decide ((i >>> k) &&& 1 ≠ j &&& 1) := by
        split
        case isTrue h => rw [Nat.one_shiftLeft, Nat.testBit_two_pow_self, decide_eq_true h]
        case isFalse h =>
          simp only [Nat.zero_testBit]
          rw [decide_eq_false h]
      rw [hb2]
      rw [bit_eq_ite]
      have htb : j &&& 1 = 0 ∨ j &&& 1 = 1 := by
        have := and_one_le_one j
        omega
      rcases htb with h | h <;> rw [h] <;> cases hb : i.testBit k <;> simp
    · rw [hm1 k hk1, hm2 k hk2, if_neg hk1, if_neg hk2]
      simp

theorem dest_lt (q1 q2 n i j : ℕ) (hq1 : q1 < n) (hq2 : q2 < n) (hi : i < 2 ^ n) :
    dest q1 q2 i j < 2 ^ n := by
  have hp : ∀ q : ℕ, q < n → (1 <<< q) < 2 ^ n := by
    intro q hq
    rw [Nat.one_shiftLeft]
    exact Nat.pow_lt_pow_right (by norm_num) hq
  have h0 : (0 : ℕ) < 2 ^ n := by positivity
  unfold dest
  apply Nat.xor_lt_two_pow
  · apply Nat.xor_lt_two_pow hi
    split
    · exact hp q1 hq1
    · exact h0
  · split
    · exact hp q2 hq2
    · exact h0

theorem patt_lt (q1 q2 i : ℕ) : patt q1 q2 i < 4 := by
  unfold patt
  have h1 : (i >>> q1) &&& 1 = 0 ∨ (i >>> q1) &&& 1 = 1 := by
    have := and_one_le_one (i >>> q1)
    omega
  have h2 : (i >>> q2) &&& 1 = 0 ∨ (i >>> q2) &&& 1 = 1 := by
    have := and_one_le_one (i >>> q2)
    omega
  rcases h1 with h1 | h1 <;> rcases h2 with h2 | h2 <;> rw [h1, h2] <;> decide

theorem patt_dest (q1 q2 : ℕ) (hne : q1 ≠ q2) (i j : ℕ) (hj : j < 4) :
    patt q1 q2 (dest q1 q2 i j) = j := by
  have hq21 : ¬ (q2 = q1) := fun h => hne h.symm
  unfold patt
  rw [bit_eq_ite, bit_eq_ite, testBit_dest q1 q2 hne i j q1, testBit_dest q1 q2 hne i j q2]
  rw [if_pos (rfl : q1 = q1), if_neg hq21, if_pos (rfl : q2 = q2)]
  interval_cases j <;> decide

theorem patt_shift_left (q1 q2 i : ℕ) : (patt q1 q2 i >>> 1) &&& 1 = (i >>> q1) &&& 1 := by
  unfold patt
  have h1 : (i >>> q1) &&& 1 = 0 ∨ (i >>> q1) &&& 1 = 1 := by
    have := and_one_le_one (i >>> q1)
    omega
  have h2 : (i >>> q2) &&& 1 = 0 ∨ (i >>> q2) &&& 1 = 1 := by
    have := and_one_le_one (i >>> q2)
    omega
  rcases h1 with h1 | h1 <;> rcases h2 with h2 | h2 <;> rw [h1, h2] <;> decide

theorem patt_and_one (q1 q2 i : ℕ) : patt q1 q2 i &&& 1 = (i >>> q2) &&& 1 := by
  unfold patt
  have h1 : (i >>> q1) &&& 1 = 0 ∨ (i >>> q1) &&& 1 = 1 := by
    have := and_one_le_one (i >>> q1)
    omega
  have h2 : (i >>> q2) &&& 1 = 0 ∨ (i >>> q2) &&& 1 = 1 := by
    have := and_one_le_one (i >>> q2)
    omega
  rcases h1 with h1 | h1 <;> rcases h2 with h2 | h2 <;> rw [h1, h2] <;> decide

theorem dest_patt (q1 q2 i : ℕ) : dest q1 q2 i (patt q1 q2 i) = i := by
  unfold dest
  rw [patt_shift_left, patt_and_one]
  rw [if_neg (by simp), if_neg (by simp)]
  simp

theorem dest_dest (q1 q2 : ℕ) (hne : q1 ≠ q2) (i j j' : ℕ) :
    dest q1 q2 (dest q1 q2 i j) j' = dest q1 q2 i j' := by
  apply Nat.eq_of_testBit_eq
  intro k
  rw [testBit_dest q1 q2 hne (dest q1 q2 i j) j' k, testBit_dest q1 q2 hne i j' k]
  by_cases hk1 : k = q1
  · rw [if_pos hk1, if_pos hk1]
  · by_cases hk2 : k = q2
    · rw [if_neg hk1, if_neg hk1, if_pos hk2, if_pos hk2]
    · rw [if_neg hk1, if_neg hk1, if_neg hk2, if_neg hk2,
        testBit_dest q1 q2 hne i j k, if_neg hk1, if_neg hk2]

/-- The rest classes: basis indices whose two target bits are 0. -/
def restSet (n q1 q2 : ℕ) : Finset ℕ :=
  (Finset.range (2 ^ n)).filter fun c => patt q1 q2 c = 0

theorem dest_zero_self (q1 q2 c : ℕ) (hc0 : patt q1 q2 c = 0) : dest q1 q2 c 0 = c := by
  conv_lhs => rw [← hc0]
  exact dest_patt q1 q2 c

/-- Every sum over the full index range regroups as a sum over rest classes
of the four pattern positions within the class. -/
theorem partitionSum (n q1 q2 : ℕ) (hq1 : q1 < n) (hq2 : q2 < n) (hne : q1 ≠ q2)
    (F : ℕ → K) :
    ∑ j in Finset.range (2 ^ n), F j =
      ∑ c in restSet n q1 q2, ∑ q in Finset.range 4, F (dest q1 q2 c q) := by
  rw [← Finset.sum_product']
  refine Finset.sum_nbij' (fun j => (dest q1 q2 j 0, patt q1 q2 j))
    (fun p => dest q1 q2 p.1 p.2) ?_ ?_ ?_ ?_ ?_
  · intro a ha
    simp only [Finset.mem_range] at ha
    simp only [Finset.mem_product, restSet, Finset.mem_filter, Finset.mem_range]
    exact ⟨⟨dest_lt q1 q2 n a 0 hq1 hq2 ha, patt_dest q1 q2 hne a 0 (by norm_num)⟩,
      patt_lt q1 q2 a⟩
  · intro p hp
    simp only [Finset.mem_product, restSet, Finset.mem_filter, Finset.mem_range] at hp
    simp only [Finset.mem_range]
    exact dest_lt q1 q2 n p.1 p.2 hq1 hq2 hp.1.1
  · intro a _
    show dest q1 q2 (dest q1 q2 a 0) (patt q1 q2 a) = a
    rw [dest_dest q1 q2 hne a 0 (patt q1 q2 a), dest_patt q1 q2 a]
  · intro p hp
    simp only [Finset.mem_product, restSet, Finset.mem_filter, Finset.mem_range] at hp
    have h1 : dest q1 q2 (dest q1 q2 p.1 p.2) 0 = p.1 := by
      rw [dest_dest q1 q2 hne, dest_zero_self q1 q2 p.1 hp.1.2]
    have h2 : patt q1 q2 (dest q1 q2 p.1 p.2) = p.2 := patt_dest q1 q2 hne p.1 p.2 hp.2
    rw [Prod.ext_iff]
    exact ⟨h1, h2⟩
  · intro a _
    show F a = F (dest q1 q2 (dest q1 q2 a 0) (patt q1 q2 a))
    rw [dest_dest q1 q2 hne a 0 (patt q1 q2 a), dest_patt q1 q2 a]

theorem sum_list_range {M : Type} [AddCommMonoid M] (f : ℕ → M) (n : ℕ) :
    ((List.range n).map f).sum = ∑ i in Finset.range n, f i := by
  induction n with
  | zero => simp
  | succ m ih =>
    rw [List.range_succ, List.map_append, List.sum_append, Finset.sum_range_succ, ih]
    simp

/-- Value of the accumulation buffer after a list of `+=` writes: the
initial value plus the contributions aimed at this slot. -/
theorem accumList_apply (l : List (ℕ × Complex K)) :
    ∀ (buf : ℕ → Complex K) (j : ℕ),
      accumList buf l j = buf j + (l.map fun p => if p.1 = j then p.2 else 0).sum := by
  induction l with
  | nil =>
    intro buf j
    simp [accumList]
  | cons hd tl ih =>
    intro buf j
    simp only [accumList, List.foldl_cons] at *
    rw [ih]
    simp only [accumOne, Function.update_apply, List.map_cons, List.sum_cons]
    by_cases h : j = hd.1
    · rw [if_pos h, if_pos h.symm, h]
      ring
    · rw [if_neg h, if_neg (fun hh => h hh.symm)]
      ring

/-- Value of the output buffer after the whole two-qubit double loop. -/
theorem foldl_accum_apply (g : ℕ → List (ℕ × Complex K)) (l : List ℕ) :
    ∀ (buf : ℕ → Complex K) (j : ℕ),
      (l.foldl (fun b i => accumList b (g i)) buf) j =
        buf j + (l.map fun i => ((g i).map fun p => if p.1 = j then p.2 else 0).sum).sum := by
  induction l with
  | nil =>
    intro buf j
    simp
  | cons hd tl ih =>
    intro buf j
    simp only [List.foldl_cons, List.map_cons, List.sum_cons]
    rw [ih, accumList_apply]
    ring

/-- Closed form of `applyTwoQubitGate`: output slot `j` collects
`M[q][patt i]·amp[i]` over every index `i` and pattern `q` with
`dest i q = j`. -/
theorem applyTwoQubitGate_vector (s : QuantumState K) (M : List (List (Complex K)))
    (q1 q2 j : ℕ) :
    (applyTwoQubitGate s M q1 q2).vector j =
      ∑ i in Finset.range (2 ^ s.qubits), ∑ q in Finset.range 4,
        if dest q1 q2 i q = j then matEntry M q (patt q1 q2 i) * s.vector i else 0 := by
  have hv : (applyTwoQubitGate s M q1 q2).vector =
      (List.range (2 ^ s.qubits)).foldl
        (fun buf i => accumList buf ((List.range 4).map fun q =>
          (dest q1 q2 i q, matEntry M q (patt q1 q2 i) * s.vector i)))
        (fun _ => 0) := rfl
  rw [hv, foldl_accum_apply (fun i => (List.range 4).map fun q =>
    (dest q1 q2 i q, matEntry M q (patt q1 q2 i) * s.vector i)) (List.range (2 ^ s.qubits))]
  rw [zero_add]
  rw [sum_list_range]
  refine Finset.sum_congr rfl fun i _ => ?_
  rw [List.map_map]
  rw [sum_list_range]
  rfl

/-- At the representative `dest c q` of a rest class `c`, the two-qubit
output is the `q`-th row of `M` applied to the class amplitudes. -/
theorem applyTwoQubitGate_vector_at_dest (s : QuantumState K)
    (M : List (List (Complex K))) (q1 q2 : ℕ) (hq1 : q1 < s.qubits) (hq2 : q2 < s.qubits)
    (hne : q1 ≠ q2) (c : ℕ) (hc : c < 2 ^ s.qubits) (hc0 : patt q1 q2 c = 0)
    (q : ℕ) (hq : q < 4) :
    (applyTwoQubitGate s M q1 q2).vector (dest q1 q2 c q) =
      ∑ p in Finset.range 4, matEntry M q p * s.vector (dest q1 q2 c p) := by
  rw [applyTwoQubitGate_vector]
  have step1 : ∀ i ∈ Finset.range (2 ^ s.qubits),
      (∑ q' in Finset.range 4,
        if dest q1 q2 i q' = dest q1 q2 c q
        then matEntry M q' (patt q1 q2 i) * s.vector i else 0) =
      (if dest q1 q2 i 0 = dest q1 q2 c 0
        then matEntry M q (patt q1 q2 i) * s.vector i else 0) := by
    intro i _
    by_cases hd : dest q1 q2 i 0 = dest q1 q2 c 0
    · rw [if_pos hd]
      have hiff : ∀ q' ∈ Finset.range 4,
          (if dest q1 q2 i q' = dest q1 q2 c q
            then matEntry M q' (patt q1 q2 i) * s.vector i else 0) =
          (if q' = q then matEntry M q' (patt q1 q2 i) * s.vector i else 0) := by
        intro q' hq'
        simp only [Finset.mem_range] at hq'
        congr 1
        apply propext
        constructor
        · intro h
          have := congrArg (patt q1 q2) h
          rwa [patt_dest q1 q2 hne i q' hq', patt_dest q1 q2 hne c q hq] at this
        · intro h
          subst h
          calc dest q1 q2 i q' = dest q1 q2 (dest q1 q2 i 0) q' := by
                rw [dest_dest q1 q2 hne i 0 q']
            _ = dest q1 q2 (dest q1 q2 c 0) q' := by rw [hd]
            _ = dest q1 q2 c q' := by rw [dest_dest q1 q2 hne c 0 q']
      rw [Finset.sum_congr rfl hiff]
      rw [Finset.sum_ite_eq' (Finset.range 4) q
        (fun q' => matEntry M q' (patt q1 q2 i) * s.vector i)]
      rw [if_pos (Finset.mem_range.mpr hq)]
    · rw [if_neg hd]
      refine Finset.sum_eq_zero fun q' hq' => ?_
      simp only [Finset.mem_range] at hq'
      rw [if_neg]
      intro h
      apply hd
      have := congrArg (fun x => dest q1 q2 x 0) h
      simpa only [dest_dest q1 q2 hne] using this
  rw [Finset.sum_congr rfl step1]
  have hcc : dest q1 q2 c 0 = c := dest_zero_self q1 q2 c hc0
  rw [hcc]
  rw [← Finset.sum_filter]
  refine Finset.sum_nbij' (fun i => patt q1 q2 i) (fun p => dest q1 q2 c p) ?_ ?_ ?_ ?_ ?_
  · intro a ha
    simp only [Finset.mem_filter, Finset.mem_range] at ha ⊢
    exact patt_lt q1 q2 a
  · intro p hp
    simp only [Finset.mem_range] at hp
    simp only [Finset.mem_filter, Finset.mem_range]
    refine ⟨dest_lt q1 q2 s.qubits c p hq1 hq2 hc, ?_⟩
    rw [dest_dest q1 q2 hne c p 0, hcc]
  · intro a ha
    simp only [Finset.mem_filter, Finset.mem_range] at ha
    calc dest q1 q2 c (patt q1 q2 a) = dest q1 q2 (dest q1 q2 a 0) (patt q1 q2 a) := by
          rw [ha.2]
      _ = dest q1 q2 a (patt q1 q2 a) := by rw [dest_dest q1 q2 hne a 0 (patt q1 q2 a)]
      _ = a := dest_patt q1 q2 a
  · intro p hp
    simp only [Finset.mem_range] at hp
    exact patt_dest q1 q2 hne c p hp
  · intro a ha
    simp only [Finset.mem_filter, Finset.mem_range] at ha
    have : dest q1 q2 c (patt q1 q2 a) = a := by
      calc dest q1 q2 c (patt q1 q2 a) = dest q1 q2 (dest q1 q2 a 0) (patt q1 q2 a) := by
            rw [ha.2]
        _ = dest q1 q2 a (patt q1 q2 a) := by rw [dest_dest q1 q2 hne a 0 (patt q1 q2 a)]
        _ = a := dest_patt q1 q2 a
    rw [this]

theorem conj_sum {α : Type} (s : Finset α) (f : α → Complex K) :
    Complex.conj (∑ x in s, f x) = ∑ x in s, Complex.conj (f x) := by
  classical
  induction s using Finset.induction_on with
  | empty => simp [Complex.conj, Complex.zero_def]
  | insert hx ih =>
    rw [Finset.sum_insert hx, Finset.sum_insert hx, Complex.conj_add, ih]

theorem re_sum {α : Type} (s : Finset α) (f : α → Complex K) :
    (∑ x in s, f x).re = ∑ x in s, (f x).re := by
  classical
  induction s using Finset.induction_on with
  | empty => rfl
  | insert hx ih =>
    rw [Finset.sum_insert hx, Finset.sum_insert hx, Complex.add_re, ih]

theorem conj_conj (a : Complex K) : Complex.conj (Complex.conj a) = a := by
  apply Complex.ext <;> simp

theorem conj_one : Complex.conj (1 : Complex K) = 1 :=
  Complex.ext rfl (by simp)

theorem conj_zero : Complex.conj (0 : Complex K) = 0 :=
  Complex.ext rfl (by simp)

theorem conj_ite (c : Prop) [Decidable c] (a b : Complex K) :
    Complex.conj (if c then a else b) = if c then Complex.conj a else Complex.conj b := by
  split <;> rfl

/-- The unitarity contraction: a row-unitary 4×4 matrix preserves the total
squared magnitude of a 4-vector. -/
theorem unitary_contraction (M : List (List (Complex K))) (hU : unitary4 M)
    (w : ℕ → Complex K) :
    ∑ q in Finset.range 4, Complex.magSquared (∑ p in Finset.range 4, matEntry M q p * w p) =
      ∑ p in Finset.range 4, Complex.magSquared (w p) := by
  have key : (∑ q in Finset.range 4,
      ((∑ p in Finset.range 4, matEntry M q p * w p) *
        Complex.conj (∑ p' in Finset.range 4, matEntry M q p' * w p'))) =
      ∑ p in Finset.range 4, w p * Complex.conj (w p) := by
    have e1 : ∀ q : ℕ,
        ((∑ p in Finset.range 4, matEntry M q p * w p) *
          Complex.conj (∑ p' in Finset.range 4, matEntry M q p' * w p')) =
        ∑ p in Finset.range 4, ∑ p' in Finset.range 4,
          (matEntry M q p * Complex.conj (matEntry M q p')) *
            (w p * Complex.conj (w p')) := by
      intro q
      rw [conj_sum, Finset.sum_mul_sum]
      refine Finset.sum_congr rfl fun p _ => Finset.sum_congr rfl fun p' _ => ?_
      rw [Complex.conj_mul]
      ring
    calc ∑ q in Finset.range 4,
          ((∑ p in Finset.range 4, matEntry M q p * w p) *
            Complex.conj (∑ p' in Finset.range 4, matEntry M q p' * w p'))
        = ∑ q in Finset.range 4, ∑ p in Finset.range 4, ∑ p' in Finset.range 4,
            (matEntry M q p * Complex.conj (matEntry M q p')) *
              (w p * Complex.conj (w p')) := Finset.sum_congr rfl fun q _ => e1 q
      _ = ∑ p in Finset.range 4, ∑ p' in Finset.range 4,
            (∑ q in Finset.range 4, matEntry M q p * Complex.conj (matEntry M q p')) *
              (w p * Complex.conj (w p')) := by
            rw [Finset.sum_comm]
            refine Finset.sum_congr rfl fun p _ => ?_
            rw [Finset.sum_comm]
            refine Finset.sum_congr rfl fun p' _ => ?_
            rw [Finset.sum_mul]
      _ = ∑ p in Finset.range 4, ∑ p' in Finset.range 4,
            (if p = p' then (1 : Complex K) else 0) * (w p * Complex.conj (w p')) := by
            refine Finset.sum_congr rfl fun p hp => Finset.sum_congr rfl fun p' hp' => ?_
            simp only [Finset.mem_range] at hp hp'
            have hrow : ∑ q in Finset.range 4,
                matEntry M q p * Complex.conj (matEntry M q p') =
                Complex.conj (∑ q in Finset.range 4,
                  Complex.conj (matEntry M q p) * matEntry M q p') := by
              rw [conj_sum]
              refine Finset.sum_congr rfl fun q _ => ?_
              rw [Complex.conj_mul, conj_conj]
            rw [hrow, hU p hp p' hp', conj_ite, conj_one, conj_zero]
      _ = ∑ p in Finset.range 4, w p * Complex.conj (w p) := by
            refine Finset.sum_congr rfl fun p hp => ?_
            have hmul : ∀ p' ∈ Finset.range 4,
                (if p = p' then (1 : Complex K) else 0) * (w p * Complex.conj (w p')) =
                (if p = p' then w p * Complex.conj (w p') else 0) := by
              intro p' _
              split
              · rw [one_mul]
              · rw [zero_mul]
            rw [Finset.sum_congr rfl hmul,
              Finset.sum_ite_eq (Finset.range 4) p (fun p' => w p * Complex.conj (w p')),
              if_pos hp]
  have l1 : ∀ q ∈ Finset.range 4,
      Complex.magSquared (∑ p in Finset.range 4, matEntry M q p * w p) =
        ((∑ p in Finset.range 4, matEntry M q p * w p) *
          Complex.conj (∑ p' in Finset.range 4, matEntry M q p' * w p')).re :=
    fun q _ => Complex.magSquared_eq_mul_conj_re _
  rw [Finset.sum_congr rfl l1, ← re_sum, key, re_sum]
  exact Finset.sum_congr rfl fun p _ => (Complex.magSquared_eq_mul_conj_re (w p)).symm

/-- The two-qubit block update with a unitary matrix and two distinct
in-range targets preserves the total squared magnitude. -/
theorem applyTwoQubitGate_norm (s : QuantumState K) (M : List (List (Complex K)))
    (q1 q2 : ℕ) (hq1 : q1 < s.qubits) (hq2 : q2 < s.qubits) (hne : q1 ≠ q2)
    (hU : unitary4 M) :
    stateNorm (applyTwoQubitGate s M q1 q2) = stateNorm s := by
  unfold stateNorm
  have hqub : (applyTwoQubitGate s M q1 q2).qubits = s.qubits := rfl
  rw [hqub]
  rw [partitionSum s.qubits q1 q2 hq1 hq2 hne
    (fun j => Complex.magSquared ((applyTwoQubitGate s M q1 q2).vector j))]
  rw [partitionSum s.qubits q1 q2 hq1 hq2 hne
    (fun j => Complex.magSquared (s.vector j))]
  refine Finset.sum_congr rfl fun c hc => ?_
  simp only [restSet, Finset.mem_filter, Finset.mem_range] at hc
  have hv : ∀ q ∈ Finset.range 4,
      Complex.magSquared ((applyTwoQubitGate s M q1 q2).vector (dest q1 q2 c q)) =
        Complex.magSquared (∑ p in Finset.range 4,
          matEntry M q p * s.vector (dest q1 q2 c p)) := by
    intro q hq
    rw [applyTwoQubitGate_vector_at_dest s M q1 q2 hq1 hq2 hne c hc.1 hc.2 q
      (Finset.mem_range.mp hq)]
  rw [Finset.sum_congr rfl hv]
  exact unitary_contraction M hU fun p => s.vector (dest q1 q2 c p)

theorem sum_swap_generic (d : ℕ) (g : ℕ → K) (a b : ℕ) (hab : a ≠ b)
    (ha : a < d) (hb : b < d) :
    ∑ j in Finset.range d, Function.update (Function.update g a (g b)) b (g a) j =
      ∑ j in Finset.range d, g j := by
  have hbm : b ∈ Finset.range d := Finset.mem_range.mpr hb
  have ham : a ∈ Finset.range d \ {b} := by
    simp only [Finset.mem_sdiff, Finset.mem_range, Finset.mem_singleton]
    exact ⟨ha, hab⟩
  rw [Finset.sum_update_of_mem hbm]
  rw [Finset.sum_update_of_mem ham]
  have h1 : ∑ x in Finset.range d, g x = g b + ∑ x in (Finset.range d).erase b, g x :=
    (Finset.add_sum_erase _ g hbm).symm
  have ham' : a ∈ (Finset.range d).erase b := by
    rw [Finset.mem_erase]
    exact ⟨hab, Finset.mem_range.mpr ha⟩
  have h2 : ∑ x in (Finset.range d).erase b, g x =
      g a + ∑ x in ((Finset.range d).erase b).erase a, g x :=
    (Finset.add_sum_erase _ g ham').symm
  rw [h1, h2]
  have he1 : Finset.range d \ {b} = (Finset.range d).erase b := (Finset.erase_eq _ _).symm
  have he2 : (Finset.range d \ {b}) \ {a} = ((Finset.range d).erase b).erase a := by
    rw [← Finset.erase_eq, ← Finset.erase_eq]
  rw [he2]
  ring

theorem magSq_double_update (buf : ℕ → Complex K) (a b : ℕ) :
    (fun j => Complex.magSquared (Function.update (Function.update buf a (buf b)) b (buf a) j)) =
      Function.update (Function.update (fun j => Complex.magSquared (buf j)) a
        (Complex.magSquared (buf b))) b (Complex.magSquared (buf a)) := by
  funext j
  rw [Function.update_apply, Function.update_apply, Function.update_apply,
    Function.update_apply]
  by_cases h1 : j = b
  · rw [if_pos h1, if_pos h1]
  · rw [if_neg h1, if_neg h1]
    by_cases h2 : j = a
    · rw [if_pos h2, if_pos h2]
    · rw [if_neg h2, if_neg h2]

/-- Every iteration of the `applyCNOT` swap loop (over in-range indices,
with an in-range target) preserves the total squared magnitude of the
buffer. -/
theorem applyCNOT_fold_norm (cq t n : ℕ) (ht : t < n) :
    ∀ (l : List ℕ) (buf : ℕ → Complex K), (∀ i ∈ l, i < 2 ^ n) →
      ∑ j in Finset.range (2 ^ n), Complex.magSquared ((l.foldl (cnotStep cq t) buf) j) =
        ∑ j in Finset.range (2 ^ n), Complex.magSquared (buf j) := by
  intro l
  induction l with
  | nil =>
    intro buf _
    rfl
  | cons hd tl ih =>
    intro buf hmem
    rw [List.foldl_cons, ih _ fun i hi => hmem i (List.mem_cons_of_mem hd hi)]
    unfold cnotStep
    split
    case isTrue h =>
      have hhd : hd < 2 ^ n := hmem hd (List.mem_cons_self hd tl)
      have hf : hd ^^^ (1 <<< t) < 2 ^ n := by
        apply Nat.xor_lt_two_pow hhd
        rw [Nat.one_shiftLeft]
        exact Nat.pow_lt_pow_right (by norm_num) ht
      have hne : hd ≠ hd ^^^ (1 <<< t) := by
        intro he
        have := congrArg (fun x => x.testBit t) he
        simp [Nat.testBit_xor, Nat.one_shiftLeft, Nat.testBit_two_pow_self] at this
      calc ∑ j in Finset.range (2 ^ n), Complex.magSquared
            (Function.update (Function.update buf hd (buf (hd ^^^ (1 <<< t))))
              (hd ^^^ (1 <<< t)) (buf hd) j)
          = ∑ j in Finset.range (2 ^ n),
              Function.update (Function.update (fun j => Complex.magSquared (buf j)) hd
                (Complex.magSquared (buf (hd ^^^ (1 <<< t)))))
                (hd ^^^ (1 <<< t)) (Complex.magSquared (buf hd)) j :=
            Finset.sum_congr rfl fun j _ => congrFun (magSq_double_update buf hd _) j
        _ = ∑ j in Finset.range (2 ^ n), Complex.magSquared (buf j) :=
            sum_swap_generic (2 ^ n) (fun j => Complex.magSquared (buf j)) hd
              (hd ^^^ (1 <<< t)) hne hhd hf
    case isFalse => rfl

/-- The CNOT specialization preserves the total squared magnitude whenever
the target qubit is in range (the double swap is in fact the identity; only
norm preservation is needed here). -/
theorem applyCNOT_norm (s : QuantumState K) (cq t : ℕ) (ht : t < s.qubits) :
    stateNorm (applyCNOT s cq t) = stateNorm s := by
  unfold stateNorm
  exact applyCNOT_fold_norm cq t s.qubits ht (List.range (2 ^ s.qubits)) s.vector
    fun i hi => List.mem_range.mp hi

/-- Structural well-formedness of an operation (the spec's preconditions):
target/control counts match the gate arity, targets are in range and
pairwise distinct. -/
def okOp (n : ℕ) (op : CircuitOperation K) : Prop :=
  op.targets.length + op.controls.length = op.gate.qubits ∧
    (∀ t ∈ op.targets, t < n) ∧ op.targets.Nodup

theorem applyGate_qubits (s : QuantumState K) (op : CircuitOperation K) :
    (applyGate s op).qubits = s.qubits := by
  unfold applyGate
  split
  · rfl
  · split
    · rfl
    · split
      · rfl
      · rfl

/-- One well-formed gate application (unitary on the arithmetic path)
preserves the total squared magnitude. -/
theorem applyGate_norm (s : QuantumState K) (op : CircuitOperation K)
    (hok : okOp s.qubits op)
    (hU : op.gate.qubits = 2 ∧ op.controls = [] → unitary4 op.gate.matrix) :
    stateNorm (applyGate s op) = stateNorm s := by
  obtain ⟨hlen, htar, hnd⟩ := hok
  unfold applyGate
  split
  case isTrue h =>
    exfalso
    obtain ⟨hne', hq1, hc0⟩ := h
    omega
  case isFalse =>
    split
    case isTrue h =>
      obtain ⟨hq2, ht2, hc0⟩ := h
      obtain ⟨a, b, hab⟩ := List.length_eq_two.mp ht2
      have hga : op.targets.getD 0 0 = a := by rw [hab]; rfl
      have hgb : op.targets.getD 1 0 = b := by rw [hab]; rfl
      rw [hga, hgb]
      have hamem : a ∈ op.targets := by rw [hab]; exact List.mem_cons_self a [b]
      have hbmem : b ∈ op.targets := by
        rw [hab]
        exact List.mem_cons_of_mem a (List.mem_cons_self b [])
      have hne : a ≠ b := by
        have hnd' := hnd
        rw [hab] at hnd'
        rcases List.nodup_cons.mp hnd' with ⟨hna, _⟩
        intro he
        exact hna (by rw [he]; exact List.mem_cons_self b [])
      exact applyTwoQubitGate_norm s op.gate.matrix a b (htar a hamem) (htar b hbmem)
        hne (hU ⟨hq2, List.length_eq_zero.mp hc0⟩)
    case isFalse =>
      split
      case isTrue h =>
        obtain ⟨hname, ht1, hc1⟩ := h
        obtain ⟨tq, htq⟩ := List.length_eq_one.mp ht1
        have hgt : op.targets.getD 0 0 = tq := by rw [htq]; rfl
        rw [hgt]
        exact applyCNOT_norm s (op.controls.getD 0 0) tq
          (htar tq (by rw [htq]; exact List.mem_cons_self tq []))
      case isFalse => rfl

/-- Claim C4: starting from `createState n` (qubit counts 1 through 10) and
applying any sequence of well-formed unitary operations via `applyGate`,
the sum of squared amplitude magnitudes equals exactly 1 after every gate
application (quantifying over all operation lists covers every prefix of a
given sequence). -/
theorem claim_C4 (n : ℕ) (ops : List (CircuitOperation K))
    (_hn1 : 1 ≤ n) (_hn10 : n ≤ 10)
    (hops : ∀ op ∈ ops, okOp n op ∧
      (op.gate.qubits = 2 ∧ op.controls = [] → unitary4 op.gate.matrix)) :
    stateNorm (ops.foldl applyGate (createState n)) = 1 := by
  have hinit : stateNorm (createState n : QuantumState K) = 1 := by
    unfold stateNorm createState
    have hterm : ∀ i ∈ Finset.range (2 ^ n),
        Complex.magSquared (if i = 0 then (1 : Complex K) else 0) =
          if i = 0 then (1 : K) else 0 := by
      intro i _
      split <;> norm_num [Complex.magSquared]
    rw [Finset.sum_congr rfl hterm,
      Finset.sum_ite_eq' (Finset.range (2 ^ n)) 0 (fun _ => (1 : K)),
      if_pos (Finset.mem_range.mpr (by positivity))]
  suffices h : ∀ (l : List (CircuitOperation K)) (s : QuantumState K),
      s.qubits = n → stateNorm s = 1 →
      (∀ op ∈ l, okOp n op ∧
        (op.gate.qubits = 2 ∧ op.controls = [] → unitary4 op.gate.matrix)) →
      stateNorm (l.foldl applyGate s) = 1 by
    exact h ops (createState n) rfl hinit hops
  intro l
  induction l with
  | nil =>
    intro s _ hs _
    exact hs
  | cons hd tl ih =>
    intro s hq hs hl
    rw [List.foldl_cons]
    have hhd := hl hd (List.mem_cons_self hd tl)
    have hok : okOp s.qubits hd := by
      rw [hq]
      exact hhd.1
    refine ih (applyGate s hd) ?_ ?_ ?_
    · rw [applyGate_qubits, hq]
    · rw [applyGate_norm s hd hok hhd.2, hs]
    · intro op hop
      exact hl op (List.mem_cons_of_mem hd hop)

/-- A SWAP operation in the two-target form: exercises the real two-qubit
arithmetic path. -/
def swapOp : CircuitOperation ℚ :=
  { gate := swapGate, targets := [0, 1] }

/-- Witness for C4: the sequence SWAP(0,1) then CNOT(control 0, target 1)
on 2 qubits keeps the squared amplitude mass at exactly 1. -/
theorem claim_C4_witness :
    (1 ≤ 2 ∧ 2 ≤ 10) ∧ okOp 2 swapOp ∧ unitary4 (swapGate (K := ℚ)).matrix ∧
      stateNorm ([swapOp, cnotOp].foldl applyGate (createState 2)) = 1 := by
  have hU : unitary4 (swapGate (K := ℚ)).matrix := by
    intro p hp p' hp'
    interval_cases p <;> interval_cases p' <;>
      norm_num [Finset.sum_range_succ, matEntry, swapGate, Complex.zero_def,
        Complex.one_def] <;> rfl
  refine ⟨⟨by norm_num, by norm_num⟩, ⟨rfl, by decide, by decide⟩, hU, ?_⟩
  refine claim_C4 2 [swapOp, cnotOp] (by norm_num) (by norm_num) ?_
  intro op hop
  simp only [List.mem_cons, List.not_mem_nil, or_false] at hop
  rcases hop with h | h
  · subst h
    exact ⟨⟨rfl, by decide, by decide⟩, fun _ => hU⟩
  · subst h
    refine ⟨⟨rfl, by decide, by decide⟩, fun hcc => ?_⟩
    exfalso
    have : cnotOp.controls = [0] := rfl
    rw [this] at hcc
    exact absurd hcc.2 (by decide)

/-! ## Buffer/aliasing model (claim C9)

The mutation claim is about JS object identity, which the pure embedding
cannot see; the definitions below re-run each dispatch path over an
explicit heap of numbered amplitude buffers, with one `hwrite` per
assignment statement of the source and one `halloc` per
`new Float64Array(...)`. The caller's buffer is an id into the heap;
the claim is that no path ever writes through it. -/

/-- A heap of numbered amplitude buffers; ids below `next` are allocated. -/
structure Heap (K : Type) where
  bufs : ℕ → ℕ → Complex K
  next : ℕ

/-- Source `new Float64Array(...)`: allocate a fresh buffer with given contents
(zeros, or a copy of an existing buffer). -/
def halloc (h : Heap K) (init : ℕ → Complex K) : ℕ × Heap K :=
  (h.next, ⟨Function.update h.bufs h.next init, h.next + 1⟩)

/-- Source `buffer[idx] = v`: write one amplitude slot of one buffer. -/
def hwrite (h : Heap K) (bid idx : ℕ) (v : Complex K) : Heap K :=
  ⟨Function.update h.bufs bid (Function.update (h.bufs bid) idx v), h.next⟩

/-- Source `applySingleQubitGate` over the heap: allocate a zero `result` buffer,
then write each output slot of `result`, reading the input amplitudes
through the caller's buffer id. -/
def applySingleQubitGateH (h : Heap K) (sid qubits : ℕ)
    (matrix : List (List (Complex K))) (targetQubit : ℕ) : Heap K × ℕ :=
  let a := halloc h fun _ => 0
  let h2 :=
    (List.range (2 ^ qubits)).foldl
      (fun hh i =>
        let sv := hh.bufs sid
        let targetBit := (i >>> targetQubit) &&& 1
        let flipped := i ^^^ (1 <<< targetQubit)
        hwrite hh a.1 i
          (if targetBit = 0 then
            matEntry matrix 0 0 * sv i + matEntry matrix 0 1 * sv flipped
          else
            matEntry matrix 1 0 * sv flipped + matEntry matrix 1 1 * sv i))
      a.2
  (h2, a.1)

/-- Source `applyCNOT` over the heap: allocate `result` as a copy of the caller's
buffer (`new Float64Array(state.vector)`), then swap inside `result` only
(the temporary `temp` is the read performed before the two writes). -/
def applyCNOTH (h : Heap K) (sid qubits controlQubit targetQubit : ℕ) : Heap K × ℕ :=
  let a := halloc h (h.bufs sid)
  let h2 :=
    (List.range (2 ^ qubits)).foldl
      (fun hh i =>
        if (i >>> controlQubit) &&& 1 = 1 then
          let v := hh.bufs a.1
          let flipped := i ^^^ (1 <<< targetQubit)
          hwrite (hwrite hh a.1 i (v flipped)) a.1 flipped (v i)
        else hh)
      a.2
  (h2, a.1)

/-- Source `applyTwoQubitGate` over the heap: allocate a zero `result` buffer and
accumulate into it, reading inputs through the caller's buffer id. -/
def applyTwoQubitGateH (h : Heap K) (sid qubits : ℕ)
    (matrix : List (List (Complex K))) (qubit1 qubit2 : ℕ) : Heap K × ℕ :=
  let a := halloc h fun _ => 0
  let h2 :=
    (List.range (2 ^ qubits)).foldl
      (fun hh i =>
        (List.range 4).foldl
          (fun hh' j =>
            let d := dest qubit1 qubit2 i j
            hwrite hh' a.1 d
              (hh'.bufs a.1 d + matEntry matrix j (patt qubit1 qubit2 i) * hh'.bufs sid i))
          hh)
      a.2
  (h2, a.1)

/-- Source `applyGate` over the heap: same dispatch; the general fallback returns
the caller's own buffer id (the source returns the input state object). -/
def applyGateH (h : Heap K) (sid qubits : ℕ) (op : CircuitOperation K) : Heap K × ℕ :=
  if op.targets.length ≠ op.gate.qubits ∧ op.gate.qubits = 1 ∧ op.controls.length = 0 then
    applySingleQubitGateH h sid qubits op.gate.matrix (op.targets.getD 0 0)
  else if op.gate.qubits = 2 ∧ op.targets.length = 2 ∧ op.controls.length = 0 then
    applyTwoQubitGateH h sid qubits op.gate.matrix (op.targets.getD 0 0) (op.targets.getD 1 0)
  else if op.gate.name = "cnot" ∧ op.targets.length = 1 ∧ op.controls.length = 1 then
    applyCNOTH h sid qubits (op.controls.getD 0 0) (op.targets.getD 0 0)
  else
    (h, sid)

omit [LinearOrderedField K] in
theorem hwrite_bufs_ne (h : Heap K) (bid idx : ℕ) (v : Complex K) (other : ℕ)
    (hne : other ≠ bid) : (hwrite h bid idx v).bufs other = h.bufs other := by
  unfold hwrite
  exact Function.update_noteq hne _ _

omit [LinearOrderedField K] in
theorem foldl_bufs_eq {α : Type} (sid : ℕ) (f : Heap K → α → Heap K)
    (hpres : ∀ hh i, (f hh i).bufs sid = hh.bufs sid) :
    ∀ (l : List α) (hh : Heap K), ((l.foldl f hh).bufs sid = hh.bufs sid) := by
  intro l
  induction l with
  | nil =>
    intro hh
    rfl
  | cons hd tl ih =>
    intro hh
    rw [List.foldl_cons, ih, hpres]

/-- Claim C9: `applyGate` never writes through the caller's buffer: on
every dispatch path (single-qubit, two-qubit, CNOT specialization, general
fallback) the caller's amplitude buffer holds exactly the values it held
before the call; in particular the CNOT path swaps inside a freshly
allocated copy. -/
theorem claim_C9 (h : Heap K) (sid qubits : ℕ) (op : CircuitOperation K)
    (hsid : sid < h.next) :
    ((applyGateH h sid qubits op).1).bufs sid = h.bufs sid := by
  have hne : sid ≠ h.next := Nat.ne_of_lt hsid
  have halloc_eq : ∀ init : ℕ → Complex K, (halloc h init).2.bufs sid = h.bufs sid := by
    intro init
    unfold halloc
    exact Function.update_noteq hne _ _
  have hfresh : ∀ init : ℕ → Complex K, (halloc h init).1 = h.next := fun _ => rfl
  unfold applyGateH
  split
  · -- single-qubit path
    refine Eq.trans (foldl_bufs_eq sid _ ?_ (List.range (2 ^ qubits))
      (halloc h fun _ => 0).2) (halloc_eq _)
    intro hh i
    exact hwrite_bufs_ne hh _ _ _ sid hne
  · split
    · -- two-qubit path
      refine Eq.trans (foldl_bufs_eq sid _ ?_ (List.range (2 ^ qubits))
        (halloc h fun _ => 0).2) (halloc_eq _)
      intro hh i
      refine foldl_bufs_eq sid _ ?_ (List.range 4) hh
      intro hh' j
      exact hwrite_bufs_ne hh' _ _ _ sid hne
    · split
      · -- CNOT path
        refine Eq.trans (foldl_bufs_eq sid _ ?_ (List.range (2 ^ qubits))
          (halloc h (h.bufs sid)).2) (halloc_eq _)
        intro hh i
        show (if (i >>> op.controls.getD 0 0) &&& 1 = 1 then _ else hh).bufs sid = hh.bufs sid
        split
        · exact Eq.trans (hwrite_bufs_ne _ _ _ _ sid hne) (hwrite_bufs_ne _ _ _ _ sid hne)
        · rfl
      · -- general fallback: same object returned, nothing written
        rfl

/-- Witness for C9: a one-buffer heap, with the Pauli-X operation; the
caller's buffer is untouched by the call. -/
theorem claim_C9_witness :
    0 < 1 ∧
      ((applyGateH (⟨fun _ _ => 0, 1⟩ : Heap ℚ) 0 1 pauliXOp).1).bufs 0 =
        (⟨fun _ _ => 0, 1⟩ : Heap ℚ).bufs 0 :=
  ⟨Nat.zero_lt_one, claim_C9 ⟨fun _ _ => 0, 1⟩ 0 1 pauliXOp Nat.zero_lt_one⟩

end QSim
